import Mathlib

/-!
Verification of the depgraph dependency resolver (src/lib/depgraph.py).

The module is embedded shallowly: the graph state (nodes, edges, the three
order sequences) is explicit data, every mutating method is a function from
state to state, and a raised Python exception is an Except.error paired with
the state as mutated up to the raise (the source never catches, so partial
marks survive an error, per spec section 7).

External collaborators (pkg_resources.Requirement parsing, the installed and
available distribution lists) are inputs: a Requirement arrives already
parsed, and a Catalog bundles the two abstract methods of DepGraph.
Version strings are represented by their comparable version_key (a Nat);
pkg_resources compares parsed versions, so spec membership is keyed on
version_key.  Logging (LOG.info / LOG.warn and the display method) has no
state effect and is omitted.  Python dicts keep insertion order; they are
modelled as association lists, updated in place for existing keys and
appended for new keys.  defaultdict creation of an empty inner entry on a
pure read is unobservable (no claim iterates outer edge keys) and omitted.
-/

namespace Depgraph

/-- A clause operator of a requirement's version spec. -/
inductive Op
  | lt | le | eq | ne | ge | gt
deriving DecidableEq, Repr

/-- A parsed setuptools-style requirement (pkg_resources.Requirement is an
external collaborator; parsing is outside the embedded module).  The spec is
a conjunction of (operator, version_key) clauses. -/
structure Req where
  project_name : String
  extras : List String
  specs : List (Op × Nat)
deriving DecidableEq, Repr

/-- One clause of a version spec, applied to a version_key. -/
def Op.holds : Op → Nat → Nat → Bool
  | Op.lt, key, v => key < v
  | Op.le, key, v => key ≤ v
  | Op.eq, key, v => key = v
  | Op.ne, key, v => ¬ (key = v)
  | Op.ge, key, v => v ≤ key
  | Op.gt, key, v => v < key

/-- Python `p.version in req` : the version satisfies every clause of the
requirement's spec (pkg_resources membership, keyed on the parsed version). -/
def Req.containsVersion (r : Req) (key : Nat) : Bool :=
  r.specs.all (fun c => c.1.holds key c.2)

/-- str.lower() for ASCII names, written structurally over the character
list so the kernel can evaluate it (String.toLower recurses on byte
positions by well-founded recursion). -/
def strLower (s : String) : String := ⟨s.data.map Char.toLower⟩

/-- req_name (line 372-373): the requirement's canonical (lowercased) name. -/
def req_name (r : Req) : String := strLower r.project_name

/-- The distribution contract consumed from collaborators (lines 204-213):
name, comparable version_key, printable version, and requirements by extra
(an association of extra tag to the extra's additional requirements). -/
structure Dist where
  name : String
  version_key : Nat
  printable_version : String
  requiresDefault : List Req
  requiresExtra : List (String × List Req)
deriving DecidableEq, Repr

/-- get_requirements(extras, exclude_default): the default requirements
(unless excluded) followed by those contributed by each given extra. -/
def Dist.get_requirements (d : Dist) (extras : List String) (excludeDefault : Bool) : List Req :=
  (if excludeDefault then [] else d.requiresDefault)
    ++ extras.flatMap (fun e => (((d.requiresExtra.find? (fun kv => kv.1 == e)).map (fun kv => kv.2)).getD []))

/-- The pkg1 field of a Node (lines 48-54): None, a pending distribution, or
the uninstall sentinel sentinal_delete. -/
inductive Pkg1
  | none
  | dist (d : Dist)
  | sentinalDelete
deriving DecidableEq, Repr

/-- Node namedtuple (line 53): name, installed pkg, pending pkg1. -/
structure Node where
  name : String
  pkg : Option Dist
  pkg1 : Pkg1
deriving DecidableEq, Repr

/-- self.nodes: an insertion-ordered dict keyed by canonical name. -/
abbrev Nodes := List (String × Node)

def nodesGet : Nodes → String → Option Node
  | [], _ => Option.none
  | (k, v) :: rest, name => if k == name then Option.some v else nodesGet rest name

/-- Python dict assignment for an existing key: replace in place. -/
def nodesSet : Nodes → String → Node → Nodes
  | [], _, _ => []
  | (k, v) :: rest, name, node =>
      if k == name then (k, node) :: rest else (k, v) :: nodesSet rest name node

/-- Python dict assignment: existing keys keep their position, new keys
append at the end of the iteration order. -/
def nodesPut (ns : Nodes) (name : String) (node : Node) : Nodes :=
  if (nodesGet ns name).isSome then nodesSet ns name node else ns ++ [(name, node)]

/-- self.edges (line 69): edges[n1][n2] = [r1, r2, ...] means n1 is required
by n2 under those requirements.  The inner key is an Option String because
add_requirement records the parent as given, and a top-level call has
parent None. -/
abbrev Edges := List (String × List (Option String × List Req))

def innerAppend : List (Option String × List Req) → Option String → Req → List (Option String × List Req)
  | [], n2, r => [(n2, [r])]
  | (k, rs) :: rest, n2, r =>
      if k == n2 then (k, rs ++ [r]) :: rest else (k, rs) :: innerAppend rest n2 r

def edgesAppend : Edges → String → Option String → Req → Edges
  | [], n1, n2, r => [(n1, [(n2, [r])])]
  | (k, inner) :: rest, n1, n2, r =>
      if k == n1 then (k, innerAppend inner n2 r) :: rest else (k, inner) :: edgesAppend rest n1 n2 r

/-- The inner dict self.edges[n1] (empty when absent). -/
def edgesInner : Edges → String → List (Option String × List Req)
  | [], _ => []
  | (k, inner) :: rest, n1 => if k == n1 then inner else edgesInner rest n1

/-- sum(self.edges[name].values(), []) in inner-dict insertion order (line 268). -/
def edgesValues (E : Edges) (n1 : String) : List Req :=
  (edgesInner E n1).flatMap (fun kv => kv.2)

/-- self.edges[name].keys() (line 245). -/
def edgesKeys (E : Edges) (n1 : String) : List (Option String) :=
  (edgesInner E n1).map (fun kv => kv.1)

/-- _Order (lines 380-403): remembered element order plus a membership set. -/
structure _Order where
  _elements : List String
  _elements_set : List String
deriving DecidableEq, Repr

/-- RequirementNotFound carries either the single requirement r (line 272)
or the joined constraint set req2str(*to_satisfy) (line 279). -/
inductive ReqPayload
  | single (r : Req)
  | joined (to_satisfy : List Req)
deriving DecidableEq, Repr

/-- The exceptions the embedded code can raise.  fuel_out is an artifact of
the embedding: the source recursion of add_requirement has no structural
bound, so it runs on explicit fuel. -/
inductive Err
  | requirement_not_found (payload : ReqPayload) (required_by : Option String)
  | key_error
  | attribute_error
  | assertion_error
  | fuel_out
deriving DecidableEq, Repr

instance {ε α : Type} [DecidableEq ε] [DecidableEq α] : DecidableEq (Except ε α) :=
  fun a b =>
    match a, b with
    | Except.ok x, Except.ok y =>
      if h : x = y then Decidable.isTrue (by rw [h])
      else Decidable.isFalse (by intro hc; cases hc; exact h rfl)
    | Except.error x, Except.error y =>
      if h : x = y then Decidable.isTrue (by rw [h])
      else Decidable.isFalse (by intro hc; cases hc; exact h rfl)
    | Except.ok _, Except.error _ => Decidable.isFalse (by intro hc; cases hc)
    | Except.error _, Except.ok _ => Decidable.isFalse (by intro hc; cases hc)

/-- _Order.push (lines 387-395).  On re-insertion the source runs
self._elements.remove(element) and then self._elements_set.remove(set):
the second call removes the builtin set type, which is never a member, so a
KeyError is raised with the element list already mutated. -/
def _Order.push (o : _Order) (element : String) : _Order × Except Err Unit :=
  if o._elements_set.contains element then
    ({ o with _elements := o._elements.erase element }, Except.error Err.key_error)
  else
    ({ _elements := o._elements ++ [element],
       _elements_set := o._elements_set ++ [element] }, Except.ok ())

/-- indices = dict([(e, i) for (i, e) in enumerate(self._elements)]) followed
by indices.get(key, 99999) (lines 402-403); a duplicated element keeps its
last index, as dict() does. -/
def rankAux : List String → String → Nat → Nat → Nat
  | [], _, _, acc => acc
  | e :: rest, k, i, acc => rankAux rest k (i + 1) (if e == k then i else acc)

def rankOf (els : List String) (k : String) : Nat :=
  rankAux els k 0 99999

/-- _Order.rearrange_list (lines 397-403): Python's stable list.sort on the
rank key; reverse=True sorts descending, keeping the original order of
elements with equal ranks. -/
def _Order.rearrange_list {α : Type} (o : _Order) (lst : List α) (key : α → String) (reverse : Bool) : List α :=
  if reverse then
    List.insertionSort (fun a b => rankOf o._elements (key b) ≤ rankOf o._elements (key a)) lst
  else
    List.insertionSort (fun a b => rankOf o._elements (key a) ≤ rankOf o._elements (key b)) lst

/-- The mutable state of MarkMixin / DepGraph (lines 47-69). -/
structure St where
  nodes : Nodes
  edges : Edges
  _order_new : _Order
  _order_change : _Order
  _order_remove : _Order
deriving DecidableEq, Repr

/-- _mark_new_requirement (lines 71-72). -/
def _mark_new_requirement (st : St) (n1 : String) (n2 : Option String) (r : Req) : St :=
  { st with edges := edgesAppend st.edges n1 n2 r }

/-- The "mark order / return node" tail of _mark_for_install (lines 84-87):
push onto _order_new and return the node, or propagate the push KeyError. -/
def pushNew (st : St) (name : String) (node : Node) : St × Except Err Node :=
  match _Order.push st._order_new name with
  | (o, Except.ok _) => ({ st with _order_new := o }, Except.ok node)
  | (o, Except.error e) => ({ st with _order_new := o }, Except.error e)

/-- The "mark order / return node" tail of _mark_for_change (lines 109-112). -/
def pushChange (st : St) (name : String) (node : Node) : St × Except Err Node :=
  match _Order.push st._order_change name with
  | (o, Except.ok _) => ({ st with _order_change := o }, Except.ok node)
  | (o, Except.error e) => ({ st with _order_change := o }, Except.error e)

/-- The "mark order / return node" tail of _mark_for_removal (lines 130-133). -/
def pushRemove (st : St) (name : String) (node : Node) : St × Except Err (Option Node) :=
  match _Order.push st._order_remove name with
  | (o, Except.ok _) => ({ st with _order_remove := o }, Except.ok (Option.some node))
  | (o, Except.error e) => ({ st with _order_remove := o }, Except.error e)

/-- _mark_for_install (lines 74-87). -/
def _mark_for_install (st : St) (name : String) (p : Dist) (required_by : Option String) (requirement : Req) :
    St × Except Err Node :=
  if (nodesGet st.nodes name).isSome then (st, Except.error Err.assertion_error) else
  let node : Node := ⟨name, Option.none, Pkg1.dist p⟩
  let st1 : St := { st with nodes := st.nodes ++ [(name, node)] }
  let st2 : St :=
    match required_by with
    | Option.some _ => _mark_new_requirement st1 name required_by requirement
    | Option.none => st1
  pushNew st2 name node

/-- _mark_for_change (lines 89-112).  The same-version collapse check reads
node.pkg.version_key; when the node has no installed distribution (pkg is
None, e.g. a pending fresh install) this is an AttributeError on NoneType. -/
def _mark_for_change (st : St) (name : String) (p : Dist) (required_by : Option String) (requirement : Req) :
    St × Except Err Node :=
  match nodesGet st.nodes name with
  | Option.none => (st, Except.error Err.assertion_error)
  | Option.some node =>
    match node.pkg with
    | Option.none => (st, Except.error Err.attribute_error)
    | Option.some ipkg =>
      let p1 : Pkg1 := if p.version_key == ipkg.version_key then Pkg1.none else Pkg1.dist p
      let node1 : Node := ⟨name, node.pkg, p1⟩
      let st1 : St := { st with nodes := nodesSet st.nodes name node1 }
      let st2 : St :=
        match required_by with
        | Option.some _ => _mark_new_requirement st1 name required_by requirement
        | Option.none => st1
      pushChange st2 name node1

/-- _mark_for_removal (lines 114-133).  Takes an Option String because
remove_package cascades over edges[name].keys(), which may contain the None
parent marker; assert name in self.nodes then fails. -/
def _mark_for_removal (st : St) (name : Option String) : St × Except Err (Option Node) :=
  match name with
  | Option.none => (st, Except.error Err.assertion_error)
  | Option.some n =>
    match nodesGet st.nodes n with
    | Option.none => (st, Except.error Err.assertion_error)
    | Option.some node =>
      match node.pkg1 with
      | Pkg1.sentinalDelete => (st, Except.ok Option.none)
      | Pkg1.dist _ => (st, Except.error Err.assertion_error)
      | Pkg1.none =>
        let node1 : Node := ⟨n, node.pkg, Pkg1.sentinalDelete⟩
        let st1 : St := { st with nodes := nodesSet st.nodes n node1 }
        pushRemove st1 n node1

/-- The plan returned by get_marks. -/
structure Marks where
  install : List Dist
  change : List (Dist × Dist)
  remove : List Dist
deriving DecidableEq, Repr

/-- get_marks (lines 135-166).  Buckets are filled in node iteration order,
then each is rearranged by its order sequence.  The remove bucket appends
node.pkg; were a remove-marked node to carry pkg None, the later sort key
attrgetter('name') would raise on None, surfaced here as Option.none (such
nodes do not arise: _mark_for_removal requires pkg1 None, and every node is
created with pkg or pkg1 set). -/
def get_marks (st : St) : Option Marks :=
  let installs : List Dist := st.nodes.filterMap (fun kv =>
    match kv.2.pkg1, kv.2.pkg with
    | Pkg1.dist p1, Option.none => Option.some p1
    | _, _ => Option.none)
  let changes : List (Dist × Dist) := st.nodes.filterMap (fun kv =>
    match kv.2.pkg1, kv.2.pkg with
    | Pkg1.dist p1, Option.some p => Option.some (p, p1)
    | _, _ => Option.none)
  let removes? : Option (List Dist) := (st.nodes.filterMap (fun kv =>
    match kv.2.pkg1 with
    | Pkg1.sentinalDelete => Option.some kv.2.pkg
    | _ => Option.none)).mapM id
  match removes? with
  | Option.none => Option.none
  | Option.some removes =>
    Option.some
      { install := st._order_new.rearrange_list installs (fun p => p.name) true
        change := st._order_change.rearrange_list changes (fun pr => pr.1.name) true
        remove := st._order_remove.rearrange_list removes (fun p => p.name) false }

/-- The two abstract collaborator methods of DepGraph (lines 222-237). -/
structure Catalog where
  installed : List Dist
  available : String → List Dist

/-- has_package (lines 239-240). -/
def has_package (st : St) (name : String) : Bool :=
  (nodesGet st.nodes name).isSome

/-- The inner loop of loader pass 2 (lines 356-363): for each base
requirement of the node pname whose target is installed, record the edge and
defer any extras triples. -/
def _load_pass2_req (pname : String) (acc : St × List (String × String × String)) (r : Req) :
    St × List (String × String × String) :=
  let rname := req_name r
  if has_package acc.1 rname then
    (_mark_new_requirement acc.1 rname (Option.some pname) r,
     acc.2 ++ r.extras.map (fun e => (rname, e, pname)))
  else acc

/-- One node of loader pass 2 (lines 354-363). -/
def _load_pass2_node (acc : St × List (String × String × String)) (kv : String × Node) :
    St × List (String × String × String) :=
  match kv.2.pkg with
  | Option.none => acc
  | Option.some ipkg => (ipkg.get_requirements [] false).foldl (_load_pass2_req kv.1) acc

/-- Loader pass 2 (lines 353-363): record edges of installed requirements
(only when the target is installed), deferring extras triples. -/
def _load_pass2 (st1 : St) : St × List (String × String × String) :=
  st1.nodes.foldl _load_pass2_node (st1, [])

/-- The edge recording of loader pass 3 (lines 366-369): note there is no
has_package re-check on the sub-requirement's name here. -/
def _load_pass3_req (n2 : String) (st : St) (r : Req) : St :=
  _mark_new_requirement st (req_name r) (Option.some n2) r

/-- One deferred extras triple of loader pass 3 (lines 366-369). -/
def _load_pass3_triple (st : St) (tr : String × String × String) : St :=
  match nodesGet st.nodes tr.1 with
  | Option.none => st
  | Option.some node =>
    match node.pkg with
    | Option.none => st
    | Option.some p0 => (p0.get_requirements [tr.2.1] true).foldl (_load_pass3_req tr.2.2) st

/-- _load_install_db (lines 343-369).  Pass 1 creates a node per installed
distribution; pass 2 records an edge for every installed requirement whose
target is installed, deferring extras triples; pass 3 records the indirect
extras edges.  The Python extra_requirements is a set (deduplicated,
unordered); it is modelled as a list in insertion order. -/
def _load_pass1 (cat : Catalog) : Nodes :=
  cat.installed.foldl (fun ns p => nodesPut ns p.name ⟨p.name, Option.some p, Pkg1.none⟩) []

def _load_install_db (cat : Catalog) : St :=
  let st1 : St := ⟨_load_pass1 cat, [], ⟨[], []⟩, ⟨[], []⟩, ⟨[], []⟩⟩
  let pass2 := _load_pass2 st1
  pass2.2.foldl _load_pass3_triple pass2.1

/-- The cascade loop of remove_package (lines 246-247): an exception from a
recursive call aborts the remaining iterations. -/
def removeListAux (step : St → Option String → St × Except Err Unit) :
    St → List (Option String) → St × Except Err Unit
  | st, [] => (st, Except.ok ())
  | st, n :: rest =>
    match step st n with
    | (st1, Except.ok _) => removeListAux step st1 rest
    | (st1, Except.error e) => (st1, Except.error e)

/-- remove_package (lines 242-247), on explicit fuel (the source recursion is
bounded only by _mark_for_removal's idempotence).  The recursive calls use
the default nodeps=False. -/
def remove_package : Nat → St → Option String → Bool → St × Except Err Unit
  | 0, st, _, _ => (st, Except.error Err.fuel_out)
  | fuel + 1, st, name, nodeps =>
    match _mark_for_removal st name with
    | (st1, Except.error e) => (st1, Except.error e)
    | (st1, Except.ok Option.none) => (st1, Except.ok ())
    | (st1, Except.ok (Option.some node)) =>
      if nodeps then (st1, Except.ok ())
      else
        removeListAux (fun st2 n => remove_package fuel st2 n false)
          st1 (edgesKeys st1.edges node.name)

/-- The transitive loop of add_requirement (lines 335-339):
ret = any([ret, self.add_requirement(...)]) for each sub-requirement; the
recursive call is always made, and an exception aborts the loop. -/
def addReqListAux (step : St → Req → St × Except Err Bool) :
    St → List Req → Bool → St × Except Err Bool
  | st, [], ret => (st, Except.ok ret)
  | st, r :: rest, ret =>
    match step st r with
    | (st1, Except.ok b) => addReqListAux step st1 rest (ret || b)
    | (st1, Except.error e) => (st1, Except.error e)

/-- node.pkg1 or node.pkg, then assert (lines 285-286 and 333-334).  The
sentinel is truthy, so a remove-marked node yields the sentinel and the later
.version_key / .get_requirements access is an AttributeError; (None, None)
would fail the assert. -/
def nodeEffective (node : Node) : Except Err Dist :=
  match node.pkg1, node.pkg with
  | Pkg1.dist d, _ => Except.ok d
  | Pkg1.sentinalDelete, _ => Except.error Err.attribute_error
  | Pkg1.none, Option.some d => Except.ok d
  | Pkg1.none, Option.none => Except.error Err.assertion_error

/-- to_satisfy (lines 265-268): the requirement itself plus, when a node for
its name already exists, every requirement recorded in edges[name][*]. -/
def toSatisfy (st : St) (r : Req) : List Req :=
  r :: (match nodesGet st.nodes (req_name r) with
        | Option.some _ => edgesValues st.edges (req_name r)
        | Option.none => [])

/-- satisfying_packages (lines 274-276): the releases whose version
satisfies every requirement of the combined constraint set. -/
def qualifying (cat : Catalog) (st : St) (r : Req) : List Dist :=
  (cat.available (req_name r)).filter
    (fun p => (toSatisfy st r).all (fun req => req.containsVersion p.version_key))

/-- The common tail of add_requirement (lines 332-339): unless nodeps, take
pkg = node.pkg1 or node.pkg (assert pkg) and recurse into
pkg.get_requirements(r.extras) with parent node.name.  The recursion itself
is passed in as recur. -/
def addReqRecurse (recur : St → Req → Option String → St × Except Err Bool)
    (st1 : St) (r : Req) (nodeps : Bool) (node : Node) (ret : Bool) : St × Except Err Bool :=
  if nodeps then (st1, Except.ok ret)
  else
    match nodeEffective node with
    | Except.error e => (st1, Except.error e)
    | Except.ok pkg =>
      addReqListAux (fun st2 r2 => recur st2 r2 (Option.some node.name))
        st1 (pkg.get_requirements r.extras false) ret

/-- The change decision (lines 287-306): no change when the candidate p has
the effective version_key, or when it would be a downgrade
(node_pkg.version_key > p.version_key) and the effective version already
satisfies every requirement of the constraint set (the for/else loop). -/
def changeDecision (node_pkg p : Dist) (to_satisfy : List Req) : Bool :=
  if node_pkg.version_key == p.version_key then false
  else if p.version_key < node_pkg.version_key then
    if to_satisfy.all (fun req => req.containsVersion node_pkg.version_key) then false
    else true
  else true

/-- add_requirement (lines 249-341), on explicit fuel.  The requirement
arrives already parsed (Requirement.parse is the external pkg_resources).
The requirements-differing warning (lines 315-325) only logs and is omitted. -/
def add_requirement (cat : Catalog) : Nat → St → Req → Bool → Option String → St × Except Err Bool
  | 0, st, _, _, _ => (st, Except.error Err.fuel_out)
  | fuel + 1, st, r, nodeps, parent =>
    let name := req_name r
    let to_satisfy := toSatisfy st r
    let releases := cat.available name
    if releases.isEmpty then
      (st, Except.error (Err.requirement_not_found (ReqPayload.single r) parent))
    else
      match qualifying cat st r with
      | [] => (st, Except.error (Err.requirement_not_found (ReqPayload.joined to_satisfy) parent))
      | p :: _ =>
        match nodesGet st.nodes name with
        | Option.some node =>
          match nodeEffective node with
          | Except.error e => (st, Except.error e)
          | Except.ok node_pkg =>
            if changeDecision node_pkg p to_satisfy then
              match _mark_for_change st name p parent r with
              | (st1, Except.error e) => (st1, Except.error e)
              | (st1, Except.ok node1) =>
                let ret : Bool := match node1.pkg1 with | Pkg1.dist _ => true | _ => false
                addReqRecurse (fun st2 r2 p2 => add_requirement cat fuel st2 r2 nodeps p2)
                  st1 r nodeps node1 ret
            else
              addReqRecurse (fun st2 r2 p2 => add_requirement cat fuel st2 r2 nodeps p2)
                (_mark_new_requirement st name parent r) r nodeps node false
        | Option.none =>
          match _mark_for_install st name p parent r with
          | (st1, Except.error e) => (st1, Except.error e)
          | (st1, Except.ok node1) =>
            addReqRecurse (fun st2 r2 p2 => add_requirement cat fuel st2 r2 nodeps p2)
              st1 r nodeps node1 true

end Depgraph

namespace Depgraph

/-! ## The example catalog (lines 417-469)

Version keys encode pkg_resources.parse_version order within each name:
0.9 ↦ 9, 0.9.1 ↦ 91, 0.9.2 ↦ 92, 1.4.0 ↦ 140, 2.1 ↦ 21, 2.3 ↦ 23. -/

def pycrypto_loose : Req := ⟨"pycrypto", [], []⟩
def pycrypto_le21 : Req := ⟨"pycrypto", [], [(Op.le, 21)]⟩
def paramiko_loose : Req := ⟨"paramiko", [], []⟩
def fabric_loose : Req := ⟨"fabric", [], []⟩
def pycrypto_ge23 : Req := ⟨"pycrypto", [], [(Op.ge, 23)]⟩
def pycrypto_eq21 : Req := ⟨"pycrypto", [], [(Op.eq, 21)]⟩
def pycrypto_lt20 : Req := ⟨"pycrypto", [], [(Op.lt, 20)]⟩

def fabric_091 : Dist := ⟨"fabric", 91, "0.9.1", [pycrypto_loose], []⟩
def fabric_092 : Dist := ⟨"fabric", 92, "0.9.2", [pycrypto_le21, paramiko_loose], []⟩
def paramiko_09 : Dist := ⟨"paramiko", 9, "0.9", [pycrypto_loose], []⟩
def pycrypto_23 : Dist := ⟨"pycrypto", 23, "2.3", [], []⟩
def pycrypto_21 : Dist := ⟨"pycrypto", 21, "2.1", [], []⟩
def virtualenv_140 : Dist := ⟨"virtualenv", 140, "1.4.0", [], []⟩

/-- The repository collaborator of the example; names outside the catalog
return no releases. -/
def exampleCatalog : Catalog :=
  { installed := [fabric_091, pycrypto_21, virtualenv_140]
    available := fun name =>
      if name == "fabric" then [fabric_092, fabric_091]
      else if name == "paramiko" then [paramiko_09]
      else if name == "pycrypto" then [pycrypto_23, pycrypto_21]
      else [] }

/-- The initial installed state of the scenarios. -/
def st0 : St := _load_install_db exampleCatalog

end Depgraph

namespace Depgraph

/-! ## Claim-support definitions -/

/-- Is the outcome a raised RequirementNotFound? -/
def isReqNotFound {α : Type} : Except Err α → Bool
  | Except.error (Err.requirement_not_found _ _) => true
  | _ => false

/-- All recorded edge pairs (dependency name, dependent key). -/
def edge_pairs (E : Edges) : List (String × Option String) :=
  E.flatMap (fun kv => kv.2.map (fun inner => (kv.1, inner.1)))

/-- The invariant as claimed: for every recorded edge edges[a][b], both the
dependency name a and the dependent name b are keys of the node map. -/
def edge_inv_claimed (st : St) : Bool :=
  (edge_pairs st.edges).all (fun pr =>
    (nodesGet st.nodes pr.1).isSome &&
    (match pr.2 with
     | Option.some b => (nodesGet st.nodes b).isSome
     | Option.none => false))

/-- The amended invariant: a is a node key, and b is either a node key or
the None parent marker of a top-level requirement. -/
def edge_inv_amended (st : St) : Bool :=
  (edge_pairs st.edges).all (fun pr =>
    (nodesGet st.nodes pr.1).isSome &&
    (match pr.2 with
     | Option.some b => (nodesGet st.nodes b).isSome
     | Option.none => true))

/-- Graph states reachable from loading the installed database and then
applying any sequence of public add_requirement / remove_package calls
(public calls pass parent None; a state mutated up to a raised exception is
kept by the caller, spec section 7, so it is reachable). -/
inductive Reachable (cat : Catalog) : St → Prop
  | load : Reachable cat (_load_install_db cat)
  | add (fuel : Nat) (st : St) (r : Req) (nodeps : Bool) :
      Reachable cat st →
      Reachable cat (add_requirement cat fuel st r nodeps Option.none).1
  | remove (fuel : Nat) (st : St) (name : Option String) (nodeps : Bool) :
      Reachable cat st →
      Reachable cat (remove_package fuel st name nodeps).1

/-- No installed distribution's default requirement mentions extras; the
loader's pass 3 is then vacuous.  (The example catalog satisfies this.) -/
def installedReqsNoExtras (cat : Catalog) : Bool :=
  cat.installed.all (fun d => (d.get_requirements [] false).all (fun r => r.extras.isEmpty))

/-! ## Named runs over the example catalog -/

/-- add_requirement("fabric") on the initial state (scenario 1). -/
def fabricRun : St × Except Err Bool :=
  add_requirement exampleCatalog 10 st0 fabric_loose false Option.none

/-- add_requirement("fabric") a second time, on the state the first call
produced. -/
def fabricRunTwice : St × Except Err Bool :=
  add_requirement exampleCatalog 10 fabricRun.1 fabric_loose false Option.none

/-- add_requirement("pycrypto>=2.3") on the initial state (scenario 2,
first step). -/
def ge23Run : St × Except Err Bool :=
  add_requirement exampleCatalog 10 st0 pycrypto_ge23 false Option.none

/-- add_requirement("fabric") after add_requirement("pycrypto>=2.3")
(scenario 2, second step). -/
def ge23ThenFabricRun : St × Except Err Bool :=
  add_requirement exampleCatalog 10 ge23Run.1 fabric_loose false Option.none

/-- add_requirement("pycrypto==2.1") on the initial state (scenario 4). -/
def eq21Run : St × Except Err Bool :=
  add_requirement exampleCatalog 10 st0 pycrypto_eq21 false Option.none

/-- remove_package("pycrypto") on the initial state (scenario 5). -/
def removePycryptoRun : St × Except Err Unit :=
  remove_package 10 st0 (Option.some "pycrypto") false

/-! ## A catalog whose only distribution is pending-install (for the
_mark_for_change NoneType access) -/

def a_20 : Dist := ⟨"a", 20, "2.0", [], []⟩
def a_10 : Dist := ⟨"a", 10, "1.0", [], []⟩
def a_loose : Req := ⟨"a", [], []⟩
def a_lt20 : Req := ⟨"a", [], [(Op.lt, 20)]⟩

/-- Nothing installed; releases of a are [2.0, 1.0], newest first. -/
def pendingCatalog : Catalog :=
  { installed := []
    available := fun name => if name == "a" then [a_20, a_10] else [] }

/-- The state after add_requirement("a"): node a is (installed None,
pending INSTALL a-2.0). -/
def pendingSt : St :=
  (add_requirement pendingCatalog 10 (_load_install_db pendingCatalog) a_loose false Option.none).1

/-- add_requirement("a<2.0") on that state reaches _mark_for_change. -/
def pendingChangeRun : St × Except Err Bool :=
  add_requirement pendingCatalog 10 pendingSt a_lt20 false Option.none

/-! ## A catalog whose installed requirements use an extra naming an
uninstalled distribution (for the loader's unguarded pass 3) -/

def z_ge20 : Req := ⟨"z", [], [(Op.ge, 20)]⟩
def y_extra_e : Req := ⟨"y", ["e"], []⟩
def z_loose : Req := ⟨"z", [], []⟩
def x_10 : Dist := ⟨"x", 10, "1.0", [y_extra_e], []⟩
def y_10 : Dist := ⟨"y", 10, "1.0", [], [("e", [z_ge20])]⟩
def z_10 : Dist := ⟨"z", 10, "1.0", [], []⟩

/-- x-1.0 (installed) requires y[e]; y-1.0 (installed) contributes z>=2.0
under extra e; z is not installed and only z-1.0 is available. -/
def extrasCatalog : Catalog :=
  { installed := [x_10, y_10]
    available := fun name => if name == "z" then [z_10] else [] }

/-- Loading records the indirect extras edge edges[z][x] = [z>=2.0] even
though z is not installed. -/
def extrasSt : St := _load_install_db extrasCatalog

/-- add_requirement("z") on that state. -/
def extrasRun : St × Except Err Bool :=
  add_requirement extrasCatalog 10 extrasSt z_loose false Option.none

end Depgraph

namespace Depgraph

/-! ## Concrete claim theorems -/

/-- C8: starting from the initial installed state with the example catalog,
add_requirement("fabric") returns true and get_marks yields
install = [paramiko-0.9], change = [(fabric-0.9.1, fabric-0.9.2)],
remove = [], with pycrypto left unchanged at 2.1 (installed pycrypto-2.1
satisfies fabric-0.9.2's pycrypto<=2.1). -/
theorem add_fabric_plan :
    fabricRun.2 = Except.ok true
  ∧ get_marks fabricRun.1 = Option.some ⟨[paramiko_09], [(fabric_091, fabric_092)], []⟩
  ∧ nodesGet fabricRun.1.nodes "pycrypto"
      = Option.some ⟨"pycrypto", Option.some pycrypto_21, Pkg1.none⟩ := by
  decide

/-- C1 counterexample: after add_requirement("pycrypto>=2.3") succeeds, the
claim says add_requirement("fabric") raises RequirementNotFound; the code
instead raises KeyError (from _Order.push re-inserting pycrypto on the
change order after the same-version collapse reverts the pending 2.3), and
no RequirementNotFound arises. -/
theorem ge23_then_fabric_key_error_cex :
    ge23ThenFabricRun.2 = Except.error Err.key_error
  ∧ isReqNotFound ge23ThenFabricRun.2 = false := by
  decide

/-- C1 amended: add_requirement("pycrypto>=2.3") on the initial state
returns true and marks the change pycrypto-2.1 -> pycrypto-2.3 with no
installs or removals; the subsequent add_requirement("fabric") fails, but
with a KeyError from _Order.push, not RequirementNotFound: the user's
pycrypto>=2.3 was never recorded as an edge (parent None), so the recursive
pycrypto<=2.1 call picks the installed 2.1, whose same-version collapse
reverts the pending 2.3 and re-pushes pycrypto on the change order. -/
theorem ge23_then_fabric_amended :
    ge23Run.2 = Except.ok true
  ∧ get_marks ge23Run.1 = Option.some ⟨[], [(pycrypto_21, pycrypto_23)], []⟩
  ∧ edgesValues ge23Run.1.edges "pycrypto" = [pycrypto_loose]
  ∧ ge23ThenFabricRun.2 = Except.error Err.key_error := by
  decide

/-- C2: the code evaluated at the failing input: remove_package("pycrypto")
on the initial state cascades to fabric, but get_marks returns
remove = [pycrypto-2.1, fabric-0.9.1] — the dependency before its dependent
— because _mark_for_removal stamps the order before cascading and the
remove bucket is sorted forward. -/
theorem remove_pycrypto_cascade_order :
    removePycryptoRun.2 = Except.ok ()
  ∧ removePycryptoRun.1._order_remove._elements = ["pycrypto", "fabric"]
  ∧ get_marks removePycryptoRun.1 = Option.some ⟨[], [], [pycrypto_21, fabric_091]⟩ := by
  decide

/-- C3 counterexample: calling add_requirement("fabric") twice with fixed
collaborator responses does not leave the graph state exactly equal: the
second call re-appends the requirement to the edge map (under the None
parent key at top level and under the existing keys below). -/
theorem add_fabric_twice_state_differs_cex :
    ¬ (fabricRunTwice.1 = fabricRun.1) := by
  decide

/-- C3 amended: on the example catalog, the second add_requirement("fabric")
returns false and leaves the node map and the three order sequences exactly
as after the first call, but the edge map differs: the requirement is
recorded again, including under the None parent key. -/
theorem add_fabric_twice_amended :
    fabricRunTwice.2 = Except.ok false
  ∧ fabricRunTwice.1.nodes = fabricRun.1.nodes
  ∧ fabricRunTwice.1._order_new = fabricRun.1._order_new
  ∧ fabricRunTwice.1._order_change = fabricRun.1._order_change
  ∧ fabricRunTwice.1._order_remove = fabricRun.1._order_remove
  ∧ ¬ (fabricRunTwice.1.edges = fabricRun.1.edges)
  ∧ edgesInner fabricRunTwice.1.edges "fabric" = [(Option.none, [fabric_loose])] := by
  decide

/-- C4 counterexample: the state reached by loading the example installed
database and calling add_requirement("pycrypto==2.1") records the edge
edges[pycrypto][None] (the no-change branch records the parent as given,
and a top-level call has parent None), so not every recorded edge has a
dependent that is a node key. -/
theorem edge_inv_claimed_fails_cex :
    edge_inv_claimed eq21Run.1 = false
  ∧ eq21Run.2 = Except.ok false
  ∧ edge_pairs eq21Run.1.edges
      = [("pycrypto", Option.some "fabric"), ("pycrypto", Option.none)] := by
  decide

/-- C5: the code evaluated at the failing input: pushing "a" onto a fresh
order succeeds, but pushing it again raises KeyError — the source removes
the builtin set (never a member) from _elements_set — with the element
already removed from the order list, instead of completing the documented
move-to-end. -/
theorem push_reinsertion_key_error :
    _Order.push ⟨[], []⟩ "a" = (⟨["a"], ["a"]⟩, Except.ok ())
  ∧ _Order.push ⟨["a"], ["a"]⟩ "a" = (⟨[], ["a"]⟩, Except.error Err.key_error) := by
  decide

/-- C6 counterexample: with reverse set, an element whose key is not in the
order sequence ends up at the head of the result, not the tail: the absent
key ranks 99999, the largest, and the sort is descending. -/
theorem rearrange_reverse_absent_head_cex :
    _Order.rearrange_list ⟨["a"], ["a"]⟩ ["b", "a"] (fun s => s) true = ["b", "a"]
  ∧ rankOf ["a"] "b" = 99999
  ∧ rankOf ["a"] "a" = 0 := by
  decide

/-- C7: the code evaluated at the failing input: loading the extras catalog
records edges[z][x] = [z>=2.0] although z is not installed (pass 3 of the
loader does not re-check has_package); add_requirement("z") then returns
normally, but the node's effective distribution z-1.0 does not satisfy the
recorded edge requirement z>=2.0 — the call never saw that edge because the
node for z did not exist when to_satisfy was built. -/
theorem add_z_unsatisfied_edge :
    extrasRun.2 = Except.ok true
  ∧ nodesGet extrasRun.1.nodes "z" = Option.some ⟨"z", Option.none, Pkg1.dist z_10⟩
  ∧ nodeEffective ⟨"z", Option.none, Pkg1.dist z_10⟩ = Except.ok z_10
  ∧ edgesValues extrasRun.1.edges "z" = [z_ge20]
  ∧ z_ge20.containsVersion z_10.version_key = false := by
  decide

/-- C10: a node with installed None and a pending install (created by
add_requirement("a") picking a-2.0) makes a further add_requirement("a<2.0")
— whose highest qualifying candidate a-1.0 differs in version_key — reach
_mark_for_change, whose same-version collapse check reads version_key from
the node's installed field, None: the call fails with an AttributeError,
not RequirementNotFound. -/
theorem add_on_pending_install_attribute_error :
    nodesGet pendingSt.nodes "a" = Option.some ⟨"a", Option.none, Pkg1.dist a_20⟩
  ∧ pendingChangeRun = (pendingSt, Except.error Err.attribute_error)
  ∧ isReqNotFound pendingChangeRun.2 = false := by
  decide

end Depgraph

namespace Depgraph

/-! ## Error taxonomy of the primitives -/

theorem push_error_cases (o : _Order) (el : String) (e : Err)
    (h : (_Order.push o el).2 = Except.error e) : e = Err.key_error := by
  unfold _Order.push at h
  split at h <;> simp_all

theorem pushNew_error (st : St) (n : String) (node : Node) (e : Err)
    (h : (pushNew st n node).2 = Except.error e) : e = Err.key_error := by
  unfold pushNew at h
  cases hp : _Order.push st._order_new n with
  | mk o res =>
    rw [hp] at h
    cases res with
    | ok u => simp at h
    | error e1 =>
      simp at h
      subst h
      exact push_error_cases st._order_new n e1 (by rw [hp])

theorem pushChange_error (st : St) (n : String) (node : Node) (e : Err)
    (h : (pushChange st n node).2 = Except.error e) : e = Err.key_error := by
  unfold pushChange at h
  cases hp : _Order.push st._order_change n with
  | mk o res =>
    rw [hp] at h
    cases res with
    | ok u => simp at h
    | error e1 =>
      simp at h
      subst h
      exact push_error_cases st._order_change n e1 (by rw [hp])

theorem pushRemove_error (st : St) (n : String) (node : Node) (e : Err)
    (h : (pushRemove st n node).2 = Except.error e) : e = Err.key_error := by
  unfold pushRemove at h
  cases hp : _Order.push st._order_remove n with
  | mk o res =>
    rw [hp] at h
    cases res with
    | ok u => simp at h
    | error e1 =>
      simp at h
      subst h
      exact push_error_cases st._order_remove n e1 (by rw [hp])

theorem nodeEffective_error_cases (node : Node) (e : Err)
    (h : nodeEffective node = Except.error e) :
    e = Err.attribute_error ∨ e = Err.assertion_error := by
  unfold nodeEffective at h
  split at h <;> simp_all

theorem mark_for_change_error_cases (st : St) (name : String) (p : Dist)
    (rb : Option String) (req : Req) (e : Err)
    (h : (_mark_for_change st name p rb req).2 = Except.error e) :
    e = Err.assertion_error ∨ e = Err.attribute_error ∨ e = Err.key_error := by
  cases hn : nodesGet st.nodes name with
  | none =>
    simp only [_mark_for_change, hn] at h
    simp at h
    exact Or.inl h.symm
  | some node =>
    cases hp : node.pkg with
    | none =>
      simp only [_mark_for_change, hn, hp] at h
      simp at h
      exact Or.inr (Or.inl h.symm)
    | some ipkg =>
      simp only [_mark_for_change, hn, hp] at h
      exact Or.inr (Or.inr (pushChange_error _ _ _ _ h))

theorem mark_for_install_error_cases (st : St) (name : String) (p : Dist)
    (rb : Option String) (req : Req) (e : Err)
    (h : (_mark_for_install st name p rb req).2 = Except.error e) :
    e = Err.assertion_error ∨ e = Err.key_error := by
  cases hs : (nodesGet st.nodes name).isSome with
  | true =>
    simp only [_mark_for_install, hs] at h
    simp at h
    exact Or.inl h.symm
  | false =>
    simp only [_mark_for_install, hs] at h
    simp only [Bool.false_eq_true, if_false] at h
    exact Or.inr (pushNew_error _ _ _ _ h)

theorem mark_for_removal_error_cases (st : St) (name : Option String) (e : Err)
    (h : (_mark_for_removal st name).2 = Except.error e) :
    e = Err.assertion_error ∨ e = Err.key_error := by
  cases name with
  | none =>
    simp only [_mark_for_removal] at h
    simp at h
    exact Or.inl h.symm
  | some n =>
    cases hn : nodesGet st.nodes n with
    | none =>
      simp only [_mark_for_removal, hn] at h
      simp at h
      exact Or.inl h.symm
    | some node =>
      cases hp : node.pkg1 with
      | sentinalDelete =>
        simp only [_mark_for_removal, hn, hp] at h
        simp at h
      | dist d =>
        simp only [_mark_for_removal, hn, hp] at h
        simp at h
        exact Or.inl h.symm
      | none =>
        simp only [_mark_for_removal, hn, hp] at h
        exact Or.inr (pushRemove_error _ _ _ _ h)

/-- Errors propagated out of the transitive loop come from its steps. -/
theorem addReqListAux_error {Q : Err → Prop} (step : St → Req → St × Except Err Bool)
    (hstep : ∀ st r e, (step st r).2 = Except.error e → Q e) :
    ∀ rs st b e, (addReqListAux step st rs b).2 = Except.error e → Q e := by
  intro rs
  induction rs with
  | nil => intro st b e h; simp [addReqListAux] at h
  | cons r rest ih =>
    intro st b e h
    cases hs : step st r with
    | mk st1 res =>
      cases res with
      | ok bb =>
        simp only [addReqListAux, hs] at h
        exact ih st1 (b || bb) e h
      | error e1 =>
        simp only [addReqListAux, hs] at h
        simp at h
        subst h
        exact hstep st r e1 (by rw [hs])

/-- Errors out of the common recursion tail are the effective-package
AttributeError / AssertionError or errors of a recursive call that was
passed parent some node.name. -/
theorem addReqRecurse_error {Q : Err → Prop}
    (recur : St → Req → Option String → St × Except Err Bool) (node : Node)
    (hQa : Q Err.attribute_error) (hQs : Q Err.assertion_error)
    (hrec : ∀ st2 r2 e, (recur st2 r2 (Option.some node.name)).2 = Except.error e → Q e) :
    ∀ st1 r nodeps ret e,
      (addReqRecurse recur st1 r nodeps node ret).2 = Except.error e → Q e := by
  intro st1 r nodeps ret e h
  unfold addReqRecurse at h
  split at h
  · simp at h
  · cases he : nodeEffective node with
    | error e1 =>
      rw [he] at h
      simp at h
      subst h
      rcases nodeEffective_error_cases node e1 he with h' | h'
      · rw [h']; exact hQa
      · rw [h']; exact hQs
    | ok pkg =>
      rw [he] at h
      exact addReqListAux_error _ (fun st3 r3 e3 h3 => hrec st3 r3 e3 h3) _ _ _ _ h

end Depgraph

namespace Depgraph

/-- Any raised RequirementNotFound whose recorded parent is None was raised
at the top of a parent-None call, at one of the two raise sites of
add_requirement (lines 270-279): recursive calls always pass parent
some node.name, so their raises carry a some parent. -/
theorem add_requirement_rnf_none (cat : Catalog) :
    ∀ fuel st r nodeps parent pl,
      (add_requirement cat fuel st r nodeps parent).2
        = Except.error (Err.requirement_not_found pl Option.none) →
      parent = Option.none ∧ (cat.available (req_name r) = [] ∨ qualifying cat st r = []) := by
  intro fuel
  induction fuel with
  | zero => intro st r nodeps parent pl h; simp [add_requirement] at h
  | succ fuel ih =>
    intro st r nodeps parent pl h
    have hQ : ∀ (node1 : Node) (st1 : St) (r1 : Req) (ret1 : Bool),
        (addReqRecurse (fun st2 r2 p2 => add_requirement cat fuel st2 r2 nodeps p2)
            st1 r1 nodeps node1 ret1).2
          = Except.error (Err.requirement_not_found pl Option.none) → False := by
      intro node1 st1 r1 ret1 hh
      exact addReqRecurse_error
        (Q := fun e => e = Err.requirement_not_found pl Option.none → False)
        _ node1 (by intro hc; cases hc) (by intro hc; cases hc)
        (fun st2 r2 e he hc => by
          subst hc
          exact Option.noConfusion (ih st2 r2 nodeps (Option.some node1.name) pl he).1)
        st1 r1 nodeps ret1 _ hh rfl
    cases hemp : (cat.available (req_name r)).isEmpty with
    | true =>
      simp only [add_requirement, hemp] at h
      simp at h
      exact ⟨h.2, Or.inl (by simpa using hemp)⟩
    | false =>
      cases hq : qualifying cat st r with
      | nil =>
        simp only [add_requirement, hemp, hq] at h
        simp at h
        exact ⟨h.2, Or.inr rfl⟩
      | cons p rest =>
        simp only [add_requirement, hemp, hq, Bool.false_eq_true, if_false] at h
        cases hn : nodesGet st.nodes (req_name r) with
        | some node =>
          simp only [hn] at h
          cases he : nodeEffective node with
          | error e1 =>
            simp only [he] at h
            simp at h
            rcases nodeEffective_error_cases node e1 he with h' | h' <;> simp [h'] at h
          | ok node_pkg =>
            simp only [he] at h
            cases hch : changeDecision node_pkg p (toSatisfy st r) with
            | false =>
              simp only [hch, Bool.false_eq_true, if_false] at h
              exact (hQ node _ r false h).elim
            | true =>
              simp only [hch, if_true] at h
              cases hm : _mark_for_change st (req_name r) p parent r with
              | mk st1 res =>
                simp only [hm] at h
                cases res with
                | error e1 =>
                  simp at h
                  rcases mark_for_change_error_cases st (req_name r) p parent r e1
                    (by rw [hm]) with h' | h' | h' <;> simp [h'] at h
                | ok node1 => exact (hQ node1 st1 r _ h).elim
        | none =>
          simp only [hn] at h
          cases hm : _mark_for_install st (req_name r) p parent r with
          | mk st1 res =>
            simp only [hm] at h
            cases res with
            | error e1 =>
              simp at h
              rcases mark_for_install_error_cases st (req_name r) p parent r e1
                (by rw [hm]) with h' | h' <;> simp [h'] at h
            | ok node1 => exact (hQ node1 st1 r true h).elim

end Depgraph

namespace Depgraph

/-- C9: add_requirement raises RequirementNotFound for its name exactly when
get_available_distributions returns no releases (error payload: the single
requirement r, with the parent) or no release satisfies every requirement of
the combined constraint set to_satisfy (error payload: the joined constraint
set, with the parent); conversely, a public (parent-None) call yields a
RequirementNotFound recorded against parent None only under those two
conditions — recursive raises always carry some parent. -/
theorem add_requirement_not_found_iff (cat : Catalog) (fuel : Nat) (st : St) (r : Req)
    (nodeps : Bool) (parent : Option String) :
    (cat.available (req_name r) = [] →
      add_requirement cat (fuel + 1) st r nodeps parent
        = (st, Except.error (Err.requirement_not_found (ReqPayload.single r) parent)))
  ∧ (cat.available (req_name r) ≠ [] → qualifying cat st r = [] →
      add_requirement cat (fuel + 1) st r nodeps parent
        = (st, Except.error (Err.requirement_not_found (ReqPayload.joined (toSatisfy st r)) parent)))
  ∧ (∀ pl, (add_requirement cat (fuel + 1) st r nodeps Option.none).2
        = Except.error (Err.requirement_not_found pl Option.none) →
      cat.available (req_name r) = [] ∨ qualifying cat st r = []) := by
  refine ⟨?_, ?_, ?_⟩
  · intro hemp
    simp [add_requirement, hemp]
  · intro hne hq
    cases hav : cat.available (req_name r) with
    | nil => exact absurd hav hne
    | cons a l =>
      simp only [add_requirement, hav, hq]
      simp
  · intro pl h
    exact (add_requirement_rnf_none cat (fuel + 1) st r nodeps Option.none pl h).2

/-- C9 witness, which is also end-to-end scenario 3: with pycrypto-2.1
installed, add_requirement("pycrypto<2.0") finds releases but no qualifying
one, and raises RequirementNotFound carrying the joined constraint set
(the user's pycrypto<2.0 plus fabric-0.9.1's loose pycrypto) and parent
None, leaving the state untouched. -/
theorem add_requirement_not_found_iff_witness :
    add_requirement exampleCatalog 10 st0 pycrypto_lt20 false Option.none
      = (st0, Except.error (Err.requirement_not_found
          (ReqPayload.joined (toSatisfy st0 pycrypto_lt20)) Option.none))
  ∧ toSatisfy st0 pycrypto_lt20 = [pycrypto_lt20, pycrypto_loose] := by
  constructor
  · exact (add_requirement_not_found_iff exampleCatalog 9 st0 pycrypto_lt20 false Option.none).2.1
      (by decide) (by decide)
  · decide

end Depgraph

namespace Depgraph

/-- rankAux either returns its accumulator or an index of the scanned list
(at offsets i, ..., i + length - 1). -/
theorem rankAux_cases : ∀ (els : List String) (k : String) (i acc : Nat),
    rankAux els k i acc = acc
  ∨ (i ≤ rankAux els k i acc ∧ rankAux els k i acc < i + els.length) := by
  intro els
  induction els with
  | nil => intro k i acc; exact Or.inl rfl
  | cons e rest ih =>
    intro k i acc
    simp only [rankAux]
    by_cases hek : (e == k) = true
    · rw [if_pos hek]
      rcases ih k (i + 1) i with h | h
      · right
        rw [h]
        simp only [List.length_cons]
        omega
      · right
        simp only [List.length_cons]
        omega
    · rw [if_neg hek]
      rcases ih k (i + 1) acc with h | h
      · exact Or.inl h
      · right
        simp only [List.length_cons]
        omega

/-- A rank is either the absent sentinel 99999 or an index of the element
list. -/
theorem rankOf_eq_sentinel_or_lt (els : List String) (k : String) :
    rankOf els k = 99999 ∨ rankOf els k < els.length := by
  rcases rankAux_cases els k 0 99999 with h | h
  · exact Or.inl h
  · right
    have := h.2
    simpa [rankOf] using this

/-- C6 amended: rearrange_list permutes the list and sorts it by the rank
its key has in the order sequence (ascending, or descending when reverse is
set, ties keeping their original order as Python's stable sort does);
elements whose key is absent carry the sentinel rank 99999, so — as long as
the sequence is shorter than the sentinel — they end at the tail when
reverse is false but at the head when reverse is true. -/
theorem rearrange_amended {α : Type} (o : _Order) (lst : List α) (key : α → String)
    (h : o._elements.length ≤ 99999) :
    (∀ reverse, (o.rearrange_list lst key reverse).Perm lst)
  ∧ (o.rearrange_list lst key false).Pairwise
      (fun a b => rankOf o._elements (key a) ≤ rankOf o._elements (key b))
  ∧ (o.rearrange_list lst key true).Pairwise
      (fun a b => rankOf o._elements (key b) ≤ rankOf o._elements (key a))
  ∧ (o.rearrange_list lst key false).Pairwise
      (fun a b => rankOf o._elements (key a) = 99999 → rankOf o._elements (key b) = 99999)
  ∧ (o.rearrange_list lst key true).Pairwise
      (fun a b => ¬ rankOf o._elements (key a) = 99999 → ¬ rankOf o._elements (key b) = 99999) := by
  have hasc : (o.rearrange_list lst key false).Pairwise
      (fun a b => rankOf o._elements (key a) ≤ rankOf o._elements (key b)) := by
    haveI ht : IsTotal α (fun a b => rankOf o._elements (key a) ≤ rankOf o._elements (key b)) :=
      ⟨fun a b => Nat.le_total _ _⟩
    haveI htr : IsTrans α (fun a b => rankOf o._elements (key a) ≤ rankOf o._elements (key b)) :=
      ⟨fun a b c hab hbc => Nat.le_trans hab hbc⟩
    simpa [_Order.rearrange_list] using
      List.sorted_insertionSort (fun a b => rankOf o._elements (key a) ≤ rankOf o._elements (key b)) lst
  have hdesc : (o.rearrange_list lst key true).Pairwise
      (fun a b => rankOf o._elements (key b) ≤ rankOf o._elements (key a)) := by
    haveI ht : IsTotal α (fun a b => rankOf o._elements (key b) ≤ rankOf o._elements (key a)) :=
      ⟨fun a b => Nat.le_total _ _⟩
    haveI htr : IsTrans α (fun a b => rankOf o._elements (key b) ≤ rankOf o._elements (key a)) :=
      ⟨fun a b c hab hbc => Nat.le_trans hbc hab⟩
    simpa [_Order.rearrange_list] using
      List.sorted_insertionSort (fun a b => rankOf o._elements (key b) ≤ rankOf o._elements (key a)) lst
  refine ⟨?_, hasc, hdesc, ?_, ?_⟩
  · intro reverse
    cases reverse <;> simpa [_Order.rearrange_list] using
      List.perm_insertionSort _ lst
  · refine hasc.imp ?_
    intro a b hab ha
    rcases rankOf_eq_sentinel_or_lt o._elements (key b) with hb | hb
    · exact hb
    · omega
  · refine hdesc.imp ?_
    intro a b hab ha
    rcases rankOf_eq_sentinel_or_lt o._elements (key a) with ha' | ha'
    · exact absurd ha' ha
    · intro hb
      omega

/-- C6 amended witness: on the order sequence [a, b] and the list [c, b, a]
(key: identity), forward rearrange yields [a, b, c] — present keys by their
sequence rank, the absent key c at the tail — and the result is
rank-sorted, by the theorem applied at this input. -/
theorem rearrange_amended_witness :
    (_Order.rearrange_list ⟨["a", "b"], ["a", "b"]⟩ ["c", "b", "a"] (fun s => s) false).Pairwise
      (fun x y => rankOf ["a", "b"] x ≤ rankOf ["a", "b"] y)
  ∧ _Order.rearrange_list ⟨["a", "b"], ["a", "b"]⟩ ["c", "b", "a"] (fun s => s) false
      = ["a", "b", "c"] := by
  constructor
  · exact (rearrange_amended ⟨["a", "b"], ["a", "b"]⟩ ["c", "b", "a"] (fun s => s)
      (by decide)).2.1
  · decide

end Depgraph

namespace Depgraph

/-! ## Association-list lemmas for the edge invariant -/

theorem nodesGet_mem : ∀ (ns : Nodes) (m : String) (node : Node),
    nodesGet ns m = Option.some node → (m, node) ∈ ns := by
  intro ns
  induction ns with
  | nil => intro m node h; cases h
  | cons kv rest ih =>
    intro m node h
    obtain ⟨k, v⟩ := kv
    simp only [nodesGet] at h
    by_cases hk : (k == m) = true
    · rw [if_pos hk] at h
      cases h
      have : k = m := eq_of_beq hk
      subst this
      exact List.mem_cons_self _ _
    · rw [if_neg hk] at h
      exact List.mem_cons_of_mem _ (ih m node h)

theorem nodesGet_isSome_of_mem : ∀ (ns : Nodes) (k : String) (v : Node),
    (k, v) ∈ ns → (nodesGet ns k).isSome = true := by
  intro ns
  induction ns with
  | nil => intro k v h; cases h
  | cons kv rest ih =>
    intro k v h
    obtain ⟨k0, v0⟩ := kv
    rcases List.mem_cons.mp h with h' | h'
    · cases h'
      simp [nodesGet]
    · simp only [nodesGet]
      by_cases hk : (k0 == k) = true
      · rw [if_pos hk]; rfl
      · rw [if_neg hk]; exact ih k v h'

theorem nodesGet_append : ∀ (ns : Nodes) (n : String) (v : Node) (m : String),
    nodesGet (ns ++ [(n, v)]) m
      = match nodesGet ns m with
        | Option.some x => Option.some x
        | Option.none => if n == m then Option.some v else Option.none := by
  intro ns
  induction ns with
  | nil => intro n v m; simp [nodesGet]
  | cons kv rest ih =>
    intro n v m
    obtain ⟨k, v0⟩ := kv
    simp only [List.cons_append, nodesGet]
    by_cases hk : (k == m) = true
    · rw [if_pos hk, if_pos hk]
    · rw [if_neg hk, if_neg hk]
      exact ih n v m

theorem nodesGet_nodesSet_isSome : ∀ (ns : Nodes) (n : String) (v : Node) (m : String),
    (nodesGet (nodesSet ns n v) m).isSome = (nodesGet ns m).isSome := by
  intro ns
  induction ns with
  | nil => intro n v m; simp [nodesSet]
  | cons kv rest ih =>
    intro n v m
    obtain ⟨k, v0⟩ := kv
    simp only [nodesSet]
    by_cases hn : (k == n) = true
    · rw [if_pos hn]
      simp only [nodesGet]
      by_cases hm : (k == m) = true
      · rw [if_pos hm, if_pos hm]; rfl
      · rw [if_neg hm, if_neg hm]
    · rw [if_neg hn]
      simp only [nodesGet]
      by_cases hm : (k == m) = true
      · rw [if_pos hm, if_pos hm]
      · rw [if_neg hm, if_neg hm]
        exact ih n v m

theorem nodesGet_nodesSet_cases : ∀ (ns : Nodes) (n : String) (v : Node) (m : String) (node : Node),
    nodesGet (nodesSet ns n v) m = Option.some node →
    (node = v ∧ m = n) ∨ nodesGet ns m = Option.some node := by
  intro ns
  induction ns with
  | nil => intro n v m node h; cases h
  | cons kv rest ih =>
    intro n v m node h
    obtain ⟨k, v0⟩ := kv
    simp only [nodesSet] at h
    by_cases hn : (k == n) = true
    · rw [if_pos hn] at h
      simp only [nodesGet] at h ⊢
      by_cases hm : (k == m) = true
      · rw [if_pos hm] at h
        cases h
        exact Or.inl ⟨rfl, (eq_of_beq hm).symm.trans (eq_of_beq hn)⟩
      · rw [if_neg hm] at h
        rw [if_neg hm]
        exact Or.inr h
    · rw [if_neg hn] at h
      simp only [nodesGet] at h ⊢
      by_cases hm : (k == m) = true
      · rw [if_pos hm] at h
        rw [if_pos hm]
        exact Or.inr h
      · rw [if_neg hm] at h
        rw [if_neg hm]
        exact ih n v m node h

theorem edge_pairs_cons (kv : String × List (Option String × List Req)) (E : Edges) :
    edge_pairs (kv :: E) = kv.2.map (fun i => (kv.1, i.1)) ++ edge_pairs E := by
  simp [edge_pairs]

theorem innerAppend_fst : ∀ (inner : List (Option String × List Req)) (n2 : Option String)
    (r : Req) (x : Option String),
    x ∈ (innerAppend inner n2 r).map Prod.fst → x ∈ inner.map Prod.fst ∨ x = n2 := by
  intro inner
  induction inner with
  | nil =>
    intro n2 r x h
    simp [innerAppend] at h
    exact Or.inr h
  | cons kv rest ih =>
    intro n2 r x h
    obtain ⟨k, rs⟩ := kv
    simp only [innerAppend] at h
    by_cases hk : (k == n2) = true
    · rw [if_pos hk] at h
      simp only [List.map_cons, List.mem_cons] at h
      rcases h with h | h
      · exact Or.inl (by simp [h])
      · exact Or.inl (by simp; exact Or.inr (by simpa using h))
    · rw [if_neg hk] at h
      simp only [List.map_cons, List.mem_cons] at h
      rcases h with h | h
      · exact Or.inl (by simp [h])
      · rcases ih n2 r x (by simpa using h) with h' | h'
        · exact Or.inl (by simp; exact Or.inr (by simpa using h'))
        · exact Or.inr h'

theorem edge_pairs_edgesAppend : ∀ (E : Edges) (n1 : String) (n2 : Option String) (r : Req)
    (pr : String × Option String),
    pr ∈ edge_pairs (edgesAppend E n1 n2 r) → pr ∈ edge_pairs E ∨ pr = (n1, n2) := by
  intro E
  induction E with
  | nil =>
    intro n1 n2 r pr h
    simp [edgesAppend, edge_pairs] at h
    exact Or.inr (by simp [h])
  | cons kv rest ih =>
    intro n1 n2 r pr h
    obtain ⟨k, inner⟩ := kv
    simp only [edgesAppend] at h
    by_cases hk : (k == n1) = true
    · rw [if_pos hk] at h
      rw [edge_pairs_cons] at h
      rcases List.mem_append.mp h with h | h
      · obtain ⟨i, hi, hpr⟩ := List.mem_map.mp h
        rcases innerAppend_fst inner n2 r i.1 (List.mem_map_of_mem Prod.fst hi) with h' | h'
        · left
          rw [edge_pairs_cons]
          refine List.mem_append.mpr (Or.inl ?_)
          obtain ⟨i0, hi0, hfst⟩ := List.mem_map.mp h'
          exact List.mem_map.mpr ⟨i0, hi0, by rw [← hpr]; simp [hfst]⟩
        · right
          rw [← hpr, h', eq_of_beq hk]
      · left
        rw [edge_pairs_cons]
        exact List.mem_append.mpr (Or.inr h)
    · rw [if_neg hk] at h
      rw [edge_pairs_cons] at h
      rcases List.mem_append.mp h with h | h
      · left
        rw [edge_pairs_cons]
        exact List.mem_append.mpr (Or.inl h)
      · rcases ih n1 n2 r pr h with h' | h'
        · left
          rw [edge_pairs_cons]
          exact List.mem_append.mpr (Or.inr h')
        · exact Or.inr h'

end Depgraph

namespace Depgraph

/-! ## The invariant and its transfer lemmas -/

/-- Propositional form of the amended edge invariant. -/
def EdgeInvP (st : St) : Prop :=
  ∀ pr ∈ edge_pairs st.edges,
    (nodesGet st.nodes pr.1).isSome = true
    ∧ ∀ b, pr.2 = Option.some b → (nodesGet st.nodes b).isSome = true

/-- Every stored node carries the key it is stored under (true of every node
the code creates; needed because recursion passes node.name as parent). -/
def NamesOk (st : St) : Prop :=
  ∀ n node, nodesGet st.nodes n = Option.some node → node.name = n

def Inv (st : St) : Prop := EdgeInvP st ∧ NamesOk st

/-- The parent passed to a call is either None or an existing node key. -/
def ParOk (st : St) (parent : Option String) : Prop :=
  ∀ b, parent = Option.some b → (nodesGet st.nodes b).isSome = true

theorem edge_inv_amended_of {st : St} (h : EdgeInvP st) : edge_inv_amended st = true := by
  unfold edge_inv_amended
  rw [List.all_eq_true]
  intro pr hpr
  obtain ⟨h1, h2⟩ := h pr hpr
  cases hb : pr.2 with
  | none => simp [h1, hb]
  | some b => simp [h1, hb, h2 b hb]

theorem Inv_of_fields {st st' : St} (hn : st'.nodes = st.nodes) (he : st'.edges = st.edges)
    (h : Inv st) : Inv st' := by
  obtain ⟨h1, h2⟩ := h
  constructor
  · intro pr hpr
    rw [he] at hpr
    rw [hn]
    exact h1 pr hpr
  · intro n node hget
    rw [hn] at hget
    exact h2 n node hget

theorem nodesGet_append_isSome_mono {ns : Nodes} {m : String} (n : String) (v : Node)
    (h : (nodesGet ns m).isSome = true) :
    (nodesGet (ns ++ [(n, v)]) m).isSome = true := by
  rw [nodesGet_append]
  cases hg : nodesGet ns m with
  | none => rw [hg] at h; cases h
  | some x => simp

theorem nodesGet_append_cases {ns : Nodes} {n : String} {v : Node} {m : String} {node : Node}
    (h : nodesGet (ns ++ [(n, v)]) m = Option.some node) :
    nodesGet ns m = Option.some node ∨ (node = v ∧ n = m) := by
  rw [nodesGet_append] at h
  cases hg : nodesGet ns m with
  | some x => rw [hg] at h; exact Or.inl h
  | none =>
    rw [hg] at h
    by_cases hn : (n == m) = true
    · rw [if_pos hn] at h
      cases h
      exact Or.inr ⟨rfl, eq_of_beq hn⟩
    · rw [if_neg hn] at h
      cases h

/-! ## The push helpers only touch the order sequences -/

theorem pushNew_fields (st : St) (n : String) (node : Node) :
    (pushNew st n node).1.nodes = st.nodes ∧ (pushNew st n node).1.edges = st.edges := by
  unfold pushNew
  cases hp : _Order.push st._order_new n with
  | mk o res => cases res <;> simp

theorem pushChange_fields (st : St) (n : String) (node : Node) :
    (pushChange st n node).1.nodes = st.nodes ∧ (pushChange st n node).1.edges = st.edges := by
  unfold pushChange
  cases hp : _Order.push st._order_change n with
  | mk o res => cases res <;> simp

theorem pushRemove_fields (st : St) (n : String) (node : Node) :
    (pushRemove st n node).1.nodes = st.nodes ∧ (pushRemove st n node).1.edges = st.edges := by
  unfold pushRemove
  cases hp : _Order.push st._order_remove n with
  | mk o res => cases res <;> simp

theorem pushNew_ok {st : St} {n : String} {node node' : Node}
    (h : (pushNew st n node).2 = Except.ok node') : node' = node := by
  unfold pushNew at h
  cases hp : _Order.push st._order_new n with
  | mk o res =>
    rw [hp] at h
    cases res with
    | ok u => cases h; rfl
    | error e => cases h

theorem pushChange_ok {st : St} {n : String} {node node' : Node}
    (h : (pushChange st n node).2 = Except.ok node') : node' = node := by
  unfold pushChange at h
  cases hp : _Order.push st._order_change n with
  | mk o res =>
    rw [hp] at h
    cases res with
    | ok u => cases h; rfl
    | error e => cases h

/-! ## Mark primitives preserve the invariant -/

theorem mark_new_inv {st : St} {n1 : String} {n2 : Option String} {r : Req}
    (h : Inv st) (h1 : (nodesGet st.nodes n1).isSome = true) (h2 : ParOk st n2) :
    Inv (_mark_new_requirement st n1 n2 r) := by
  obtain ⟨hE, hN⟩ := h
  constructor
  · intro pr hpr
    rcases edge_pairs_edgesAppend st.edges n1 n2 r pr hpr with h' | h'
    · exact hE pr h'
    · subst h'
      exact ⟨h1, fun b hb => h2 b hb⟩
  · intro n node hget
    exact hN n node hget

theorem mark_for_install_inv {st : St} {name : String} {p : Dist} {parent : Option String} {r : Req}
    (h : Inv st) (hpar : ParOk st parent) :
    Inv (_mark_for_install st name p parent r).1
    ∧ ∀ node, (_mark_for_install st name p parent r).2 = Except.ok node →
        node.name = name
        ∧ (nodesGet (_mark_for_install st name p parent r).1.nodes name).isSome = true := by
  unfold _mark_for_install
  by_cases hs : (nodesGet st.nodes name).isSome = true
  · rw [if_pos hs]
    exact ⟨h, by intro node hc; cases hc⟩
  · rw [if_neg hs]
    have hkey : (nodesGet (st.nodes ++ [(name, (⟨name, Option.none, Pkg1.dist p⟩ : Node))]) name).isSome = true := by
      rw [nodesGet_append]
      cases hg : nodesGet st.nodes name with
      | some x => rw [hg] at hs; simp at hs
      | none => simp
    have hst1 : Inv { st with nodes := st.nodes ++ [(name, (⟨name, Option.none, Pkg1.dist p⟩ : Node))] } := by
      obtain ⟨hE, hN⟩ := h
      constructor
      · intro pr hpr
        obtain ⟨ha, hb⟩ := hE pr hpr
        exact ⟨nodesGet_append_isSome_mono _ _ ha,
          fun b hb' => nodesGet_append_isSome_mono _ _ (hb b hb')⟩
      · intro n node hget
        rcases nodesGet_append_cases hget with h' | h'
        · exact hN n node h'
        · rw [h'.1]
          exact h'.2
    have hpar1 : ParOk { st with nodes := st.nodes ++ [(name, (⟨name, Option.none, Pkg1.dist p⟩ : Node))] } parent :=
      fun b hb => nodesGet_append_isSome_mono _ _ (hpar b hb)
    cases parent with
    | none =>
      refine ⟨Inv_of_fields (pushNew_fields _ name _).1 (pushNew_fields _ name _).2 hst1, ?_⟩
      intro node hok
      have hn := pushNew_ok hok
      subst hn
      refine ⟨rfl, ?_⟩
      rw [(pushNew_fields _ name _).1]
      exact hkey
    | some b =>
      have hst2 : Inv (_mark_new_requirement
          { st with nodes := st.nodes ++ [(name, (⟨name, Option.none, Pkg1.dist p⟩ : Node))] }
          name (Option.some b) r) :=
        mark_new_inv hst1 hkey hpar1
      refine ⟨Inv_of_fields (pushNew_fields _ name _).1 (pushNew_fields _ name _).2 hst2, ?_⟩
      intro node hok
      have hn := pushNew_ok hok
      subst hn
      refine ⟨rfl, ?_⟩
      rw [(pushNew_fields _ name _).1]
      exact hkey

theorem mark_for_change_inv {st : St} {name : String} {p : Dist} {parent : Option String} {r : Req}
    (h : Inv st) (hpar : ParOk st parent) :
    Inv (_mark_for_change st name p parent r).1
    ∧ ∀ node, (_mark_for_change st name p parent r).2 = Except.ok node →
        node.name = name
        ∧ (nodesGet (_mark_for_change st name p parent r).1.nodes name).isSome = true := by
  cases hn : nodesGet st.nodes name with
  | none =>
    simp only [_mark_for_change, hn]
    exact ⟨h, by intro node hc; cases hc⟩
  | some node =>
    cases hp : node.pkg with
    | none =>
      simp only [_mark_for_change, hn, hp]
      exact ⟨h, by intro node1 hc; cases hc⟩
    | some ipkg =>
      simp only [_mark_for_change, hn, hp]
      have hkey : (nodesGet (nodesSet st.nodes name
          (⟨name, Option.some ipkg, if p.version_key == ipkg.version_key then Pkg1.none else Pkg1.dist p⟩ : Node)) name).isSome = true := by
        rw [nodesGet_nodesSet_isSome, hn]
        rfl
      have hst1 : Inv { st with nodes := (nodesSet st.nodes name
          (⟨name, Option.some ipkg, if p.version_key == ipkg.version_key then Pkg1.none else Pkg1.dist p⟩ : Node)) } := by
        obtain ⟨hE, hN⟩ := h
        constructor
        · intro pr hpr
          obtain ⟨ha, hb⟩ := hE pr hpr
          refine ⟨?_, fun b hb' => ?_⟩
          · rw [nodesGet_nodesSet_isSome]
            exact ha
          · rw [nodesGet_nodesSet_isSome]
            exact hb b hb'
        · intro n node1 hget
          rcases nodesGet_nodesSet_cases _ _ _ _ _ hget with h' | h'
          · rw [h'.1]
            exact h'.2.symm
          · exact hN n node1 h'
      have hpar1 : ParOk { st with nodes := (nodesSet st.nodes name
          (⟨name, Option.some ipkg, if p.version_key == ipkg.version_key then Pkg1.none else Pkg1.dist p⟩ : Node)) } parent := by
        intro b hb
        have := hpar b hb
        simpa [nodesGet_nodesSet_isSome] using this
      cases parent with
      | none =>
        refine ⟨Inv_of_fields (pushChange_fields _ name _).1 (pushChange_fields _ name _).2 hst1, ?_⟩
        intro node1 hok
        have hn1 := pushChange_ok hok
        subst hn1
        refine ⟨rfl, ?_⟩
        rw [(pushChange_fields _ name _).1]
        exact hkey
      | some b =>
        have hst2 : Inv (_mark_new_requirement
            { st with nodes := (nodesSet st.nodes name
              (⟨name, Option.some ipkg, if p.version_key == ipkg.version_key then Pkg1.none else Pkg1.dist p⟩ : Node)) }
            name (Option.some b) r) :=
          mark_new_inv hst1 hkey hpar1
        refine ⟨Inv_of_fields (pushChange_fields _ name _).1 (pushChange_fields _ name _).2 hst2, ?_⟩
        intro node1 hok
        have hn1 := pushChange_ok hok
        subst hn1
        refine ⟨rfl, ?_⟩
        rw [(pushChange_fields _ name _).1]
        exact hkey

theorem mark_for_removal_inv {st : St} {name : Option String}
    (h : Inv st) : Inv (_mark_for_removal st name).1 := by
  cases name with
  | none => exact h
  | some n =>
    cases hn : nodesGet st.nodes n with
    | none =>
      simp only [_mark_for_removal, hn]
      exact h
    | some node =>
      cases hp : node.pkg1 with
      | sentinalDelete =>
        simp only [_mark_for_removal, hn, hp]
        exact h
      | dist d =>
        simp only [_mark_for_removal, hn, hp]
        exact h
      | none =>
        simp only [_mark_for_removal, hn, hp]
        have hst1 : Inv { st with nodes := (nodesSet st.nodes n
            (⟨n, node.pkg, Pkg1.sentinalDelete⟩ : Node)) } := by
          obtain ⟨hE, hN⟩ := h
          constructor
          · intro pr hpr
            obtain ⟨ha, hb⟩ := hE pr hpr
            refine ⟨?_, fun b hb' => ?_⟩
            · rw [nodesGet_nodesSet_isSome]
              exact ha
            · rw [nodesGet_nodesSet_isSome]
              exact hb b hb'
          · intro m node1 hget
            rcases nodesGet_nodesSet_cases _ _ _ _ _ hget with h' | h'
            · rw [h'.1]
              exact h'.2.symm
            · exact hN m node1 h'
        exact Inv_of_fields (pushRemove_fields _ n _).1 (pushRemove_fields _ n _).2 hst1

end Depgraph

namespace Depgraph

/-! ## Preservation through the loops -/

theorem addReqListAux_pres {P : St → Prop} (step : St → Req → St × Except Err Bool)
    (h : ∀ st r, P st → P (step st r).1) :
    ∀ rs st b, P st → P (addReqListAux step st rs b).1 := by
  intro rs
  induction rs with
  | nil => intro st b hp; exact hp
  | cons r rest ih =>
    intro st b hp
    cases hs : step st r with
    | mk st1 res =>
      have hp1 : P st1 := by
        have := h st r hp
        rw [hs] at this
        exact this
      cases res with
      | ok bb =>
        simp only [addReqListAux, hs]
        exact ih st1 _ hp1
      | error e =>
        simp only [addReqListAux, hs]
        exact hp1

theorem addReqRecurse_pres {P : St → Prop} (recur : St → Req → Option String → St × Except Err Bool)
    (node : Node) (h : ∀ st r, P st → P (recur st r (Option.some node.name)).1) :
    ∀ st1 r nodeps ret, P st1 → P (addReqRecurse recur st1 r nodeps node ret).1 := by
  intro st1 r nodeps ret hp
  unfold addReqRecurse
  split
  · exact hp
  · cases he : nodeEffective node with
    | error e => simp only [he]; exact hp
    | ok pkg =>
      simp only [he]
      exact addReqListAux_pres _ (fun st2 r2 hp2 => h st2 r2 hp2) _ _ _ hp

theorem removeListAux_pres {P : St → Prop} (step : St → Option String → St × Except Err Unit)
    (h : ∀ st n, P st → P (step st n).1) :
    ∀ ks st, P st → P (removeListAux step st ks).1 := by
  intro ks
  induction ks with
  | nil => intro st hp; exact hp
  | cons n rest ih =>
    intro st hp
    cases hs : step st n with
    | mk st1 res =>
      have hp1 : P st1 := by
        have := h st n hp
        rw [hs] at this
        exact this
      cases res with
      | ok u => simp only [removeListAux, hs]; exact ih st1 hp1
      | error e => simp only [removeListAux, hs]; exact hp1

/-! ## Node keys only grow -/

theorem mark_for_install_key_mono {st : St} {name : String} {p : Dist} {parent : Option String}
    {r : Req} {m : String} (h : (nodesGet st.nodes m).isSome = true) :
    (nodesGet (_mark_for_install st name p parent r).1.nodes m).isSome = true := by
  unfold _mark_for_install
  by_cases hs : (nodesGet st.nodes name).isSome = true
  · rw [if_pos hs]
    exact h
  · rw [if_neg hs]
    cases parent with
    | none =>
      rw [(pushNew_fields _ _ _).1]
      exact nodesGet_append_isSome_mono _ _ h
    | some b =>
      rw [(pushNew_fields _ _ _).1]
      exact nodesGet_append_isSome_mono _ _ h

theorem mark_for_change_key {st : St} {name : String} {p : Dist} {parent : Option String}
    {r : Req} (m : String) :
    (nodesGet (_mark_for_change st name p parent r).1.nodes m).isSome
      = (nodesGet st.nodes m).isSome := by
  cases hn : nodesGet st.nodes name with
  | none => simp only [_mark_for_change, hn]
  | some node =>
    cases hp : node.pkg with
    | none => simp only [_mark_for_change, hn, hp]
    | some ipkg =>
      simp only [_mark_for_change, hn, hp]
      cases parent with
      | none =>
        rw [(pushChange_fields _ _ _).1]
        exact nodesGet_nodesSet_isSome _ _ _ _
      | some b =>
        rw [(pushChange_fields _ _ _).1]
        exact nodesGet_nodesSet_isSome _ _ _ _

theorem mark_for_removal_key {st : St} {name : Option String} (m : String) :
    (nodesGet (_mark_for_removal st name).1.nodes m).isSome
      = (nodesGet st.nodes m).isSome := by
  cases name with
  | none => rfl
  | some n =>
    cases hn : nodesGet st.nodes n with
    | none => simp only [_mark_for_removal, hn]
    | some node =>
      cases hp : node.pkg1 with
      | sentinalDelete => simp only [_mark_for_removal, hn, hp]
      | dist d => simp only [_mark_for_removal, hn, hp]
      | none =>
        simp only [_mark_for_removal, hn, hp]
        rw [(pushRemove_fields _ _ _).1]
        exact nodesGet_nodesSet_isSome _ _ _ _

theorem add_requirement_key_mono (cat : Catalog) :
    ∀ fuel st r nodeps parent m, (nodesGet st.nodes m).isSome = true →
      (nodesGet (add_requirement cat fuel st r nodeps parent).1.nodes m).isSome = true := by
  intro fuel
  induction fuel with
  | zero => intro st r nodeps parent m h; exact h
  | succ fuel ih =>
    intro st r nodeps parent m h
    cases hemp : (cat.available (req_name r)).isEmpty with
    | true =>
      simp only [add_requirement, hemp, if_true]
      exact h
    | false =>
      cases hq : qualifying cat st r with
      | nil =>
        simp only [add_requirement, hemp, hq, Bool.false_eq_true, if_false]
        exact h
      | cons p rest =>
        simp only [add_requirement, hemp, hq, Bool.false_eq_true, if_false]
        cases hn : nodesGet st.nodes (req_name r) with
        | some node =>
          simp only [hn]
          cases he : nodeEffective node with
          | error e =>
            simp only [he]
            exact h
          | ok node_pkg =>
            simp only [he]
            cases hch : changeDecision node_pkg p (toSatisfy st r) with
            | true =>
              simp only [hch, if_true]
              cases hm : _mark_for_change st (req_name r) p parent r with
              | mk st1 res =>
                have hkey1 : (nodesGet st1.nodes m).isSome = true := by
                  have := @mark_for_change_key st (req_name r) p parent r m
                  rw [hm] at this
                  rw [this]
                  exact h
                cases res with
                | error e => exact hkey1
                | ok node1 =>
                  exact addReqRecurse_pres
                    (P := fun s => (nodesGet s.nodes m).isSome = true) _ node1
                    (fun st2 r2 hp2 => ih st2 r2 nodeps (Option.some node1.name) m hp2)
                    _ _ _ _ hkey1
            | false =>
              simp only [hch, Bool.false_eq_true, if_false]
              exact addReqRecurse_pres
                (P := fun s => (nodesGet s.nodes m).isSome = true) _ node
                (fun st2 r2 hp2 => ih st2 r2 nodeps (Option.some node.name) m hp2)
                _ _ _ _ h
        | none =>
          simp only [hn]
          cases hm : _mark_for_install st (req_name r) p parent r with
          | mk st1 res =>
            have hkey1 : (nodesGet st1.nodes m).isSome = true := by
              have := @mark_for_install_key_mono st (req_name r) p parent r m h
              rw [hm] at this
              exact this
            cases res with
            | error e => exact hkey1
            | ok node1 =>
              exact addReqRecurse_pres
                (P := fun s => (nodesGet s.nodes m).isSome = true) _ node1
                (fun st2 r2 hp2 => ih st2 r2 nodeps (Option.some node1.name) m hp2)
                _ _ _ _ hkey1

end Depgraph

namespace Depgraph

/-- add_requirement preserves the edge invariant and name coherence: every
edge it records pairs the requirement's own name (a node key by the time of
recording) with the parent, which is None at top level or the name of an
existing node along the recursion. -/
theorem add_requirement_inv (cat : Catalog) :
    ∀ fuel st r nodeps parent, Inv st → ParOk st parent →
      Inv (add_requirement cat fuel st r nodeps parent).1 := by
  intro fuel
  induction fuel with
  | zero => intro st r nodeps parent h hpar; exact h
  | succ fuel ih =>
    intro st r nodeps parent h hpar
    cases hemp : (cat.available (req_name r)).isEmpty with
    | true => simp only [add_requirement, hemp, if_true]; exact h
    | false =>
      cases hq : qualifying cat st r with
      | nil => simp only [add_requirement, hemp, hq, Bool.false_eq_true, if_false]; exact h
      | cons p rest =>
        simp only [add_requirement, hemp, hq, Bool.false_eq_true, if_false]
        cases hn : nodesGet st.nodes (req_name r) with
        | some node =>
          simp only [hn]
          cases he : nodeEffective node with
          | error e => simp only [he]; exact h
          | ok node_pkg =>
            simp only [he]
            cases hch : changeDecision node_pkg p (toSatisfy st r) with
            | true =>
              simp only [hch, if_true]
              cases hm : _mark_for_change st (req_name r) p parent r with
              | mk st1 res =>
                have hall := @mark_for_change_inv st (req_name r) p parent r h hpar
                rw [hm] at hall
                obtain ⟨hinv1, hok⟩ := hall
                cases res with
                | error e => exact hinv1
                | ok node1 =>
                  obtain ⟨hname1, hkey1⟩ := hok node1 rfl
                  refine (addReqRecurse_pres
                    (P := fun s => Inv s ∧ (nodesGet s.nodes node1.name).isSome = true) _ node1
                    ?_ _ _ _ _ ⟨hinv1, ?_⟩).1
                  · intro st2 r2 hp2
                    refine ⟨ih st2 r2 nodeps (Option.some node1.name) hp2.1 ?_,
                      add_requirement_key_mono cat fuel st2 r2 nodeps (Option.some node1.name)
                        node1.name hp2.2⟩
                    intro b hb
                    cases hb
                    exact hp2.2
                  · rw [hname1]
                    exact hkey1
            | false =>
              simp only [hch, Bool.false_eq_true, if_false]
              have hkeyname : (nodesGet st.nodes (req_name r)).isSome = true := by
                rw [hn]; rfl
              have hnodename : node.name = req_name r := h.2 (req_name r) node hn
              have hinv1 : Inv (_mark_new_requirement st (req_name r) parent r) :=
                mark_new_inv h hkeyname hpar
              refine (addReqRecurse_pres
                (P := fun s => Inv s ∧ (nodesGet s.nodes node.name).isSome = true) _ node
                ?_ _ _ _ _ ⟨hinv1, ?_⟩).1
              · intro st2 r2 hp2
                refine ⟨ih st2 r2 nodeps (Option.some node.name) hp2.1 ?_,
                  add_requirement_key_mono cat fuel st2 r2 nodeps (Option.some node.name)
                    node.name hp2.2⟩
                intro b hb
                cases hb
                exact hp2.2
              · rw [hnodename]
                exact hkeyname
        | none =>
          simp only [hn]
          cases hm : _mark_for_install st (req_name r) p parent r with
          | mk st1 res =>
            have hall := @mark_for_install_inv st (req_name r) p parent r h hpar
            rw [hm] at hall
            obtain ⟨hinv1, hok⟩ := hall
            cases res with
            | error e => exact hinv1
            | ok node1 =>
              obtain ⟨hname1, hkey1⟩ := hok node1 rfl
              refine (addReqRecurse_pres
                (P := fun s => Inv s ∧ (nodesGet s.nodes node1.name).isSome = true) _ node1
                ?_ _ _ _ _ ⟨hinv1, ?_⟩).1
              · intro st2 r2 hp2
                refine ⟨ih st2 r2 nodeps (Option.some node1.name) hp2.1 ?_,
                  add_requirement_key_mono cat fuel st2 r2 nodeps (Option.some node1.name)
                    node1.name hp2.2⟩
                intro b hb
                cases hb
                exact hp2.2
              · rw [hname1]
                exact hkey1

/-- remove_package preserves the invariant: it records no edges and only
flips pending fields to the delete sentinel. -/
theorem remove_package_inv :
    ∀ fuel st name nodeps, Inv st → Inv (remove_package fuel st name nodeps).1 := by
  intro fuel
  induction fuel with
  | zero => intro st name nodeps h; exact h
  | succ fuel ih =>
    intro st name nodeps h
    cases hm : _mark_for_removal st name with
    | mk st1 res =>
      have hinv1 : Inv st1 := by
        have := @mark_for_removal_inv st name h
        rw [hm] at this
        exact this
      cases res with
      | error e =>
        simp only [remove_package, hm]
        exact hinv1
      | ok onode =>
        cases onode with
        | none =>
          simp only [remove_package, hm]
          exact hinv1
        | some node =>
          simp only [remove_package, hm]
          split
          · exact hinv1
          · exact removeListAux_pres _ (fun st2 n hp => ih st2 n false hp) _ _ hinv1

end Depgraph

namespace Depgraph

/-! ## The loader establishes the invariant (when installed requirements
carry no extras, so that the unguarded pass 3 is vacuous) -/

theorem nodesSet_mem : ∀ (ns : Nodes) (n : String) (v : Node) (kv : String × Node),
    kv ∈ nodesSet ns n v → kv ∈ ns ∨ kv = (n, v) := by
  intro ns
  induction ns with
  | nil => intro n v kv h; cases h
  | cons kv0 rest ih =>
    intro n v kv h
    obtain ⟨k, v0⟩ := kv0
    simp only [nodesSet] at h
    by_cases hk : (k == n) = true
    · rw [if_pos hk] at h
      rcases List.mem_cons.mp h with h' | h'
      · right
        rw [h', eq_of_beq hk]
      · exact Or.inl (List.mem_cons_of_mem _ h')
    · rw [if_neg hk] at h
      rcases List.mem_cons.mp h with h' | h'
      · exact Or.inl (h' ▸ List.mem_cons_self _ _)
      · rcases ih n v kv h' with h'' | h''
        · exact Or.inl (List.mem_cons_of_mem _ h'')
        · exact Or.inr h''

theorem nodesPut_mem {ns : Nodes} {n : String} {v : Node} {kv : String × Node}
    (h : kv ∈ nodesPut ns n v) : kv ∈ ns ∨ kv = (n, v) := by
  unfold nodesPut at h
  split at h
  · exact nodesSet_mem ns n v kv h
  · rcases List.mem_append.mp h with h' | h'
    · exact Or.inl h'
    · right
      simpa using h'

theorem load_pass1_mem_aux (cat : Catalog) :
    ∀ (ds : List Dist), (∀ d ∈ ds, d ∈ cat.installed) →
    ∀ (ns : Nodes),
      (∀ kv ∈ ns, (kv : String × Node).2.name = kv.1
        ∧ ∃ d ∈ cat.installed, kv.2.pkg = Option.some d) →
    ∀ kv ∈ ds.foldl (fun ns p => nodesPut ns p.name ⟨p.name, Option.some p, Pkg1.none⟩) ns,
      (kv : String × Node).2.name = kv.1 ∧ ∃ d ∈ cat.installed, kv.2.pkg = Option.some d := by
  intro ds
  induction ds with
  | nil => intro hds ns hns kv hkv; exact hns kv hkv
  | cons d rest ih =>
    intro hds ns hns kv hkv
    rw [List.foldl_cons] at hkv
    refine ih (fun d' hd' => hds d' (List.mem_cons_of_mem _ hd')) _ ?_ kv hkv
    intro kv' hkv'
    rcases nodesPut_mem hkv' with h' | h'
    · exact hns kv' h'
    · rw [h']
      exact ⟨rfl, d, hds d (List.mem_cons_self _ _), rfl⟩

theorem installed_no_extras_spec {cat : Catalog} (hnx : installedReqsNoExtras cat = true) :
    ∀ d ∈ cat.installed, ∀ r ∈ d.get_requirements [] false, r.extras = [] := by
  intro d hd r hr
  unfold installedReqsNoExtras at hnx
  rw [List.all_eq_true] at hnx
  have h1 := hnx d hd
  rw [List.all_eq_true] at h1
  have h2 := h1 r hr
  simpa using h2

theorem load_pass2_req_inv (NS : Nodes) (pname : String)
    (hk : (nodesGet NS pname).isSome = true) :
    ∀ (reqs : List Req), (∀ r ∈ reqs, r.extras = []) →
    ∀ (acc : St × List (String × String × String)),
      acc.1.nodes = NS → EdgeInvP acc.1 → acc.2 = [] →
      (reqs.foldl (_load_pass2_req pname) acc).1.nodes = NS
      ∧ EdgeInvP (reqs.foldl (_load_pass2_req pname) acc).1
      ∧ (reqs.foldl (_load_pass2_req pname) acc).2 = [] := by
  intro reqs
  induction reqs with
  | nil => intro hx acc h1 h2 h3; exact ⟨h1, h2, h3⟩
  | cons r rest ih =>
    intro hx acc h1 h2 h3
    rw [List.foldl_cons]
    have hstep1 : (_load_pass2_req pname acc r).1.nodes = NS := by
      by_cases hhas : has_package acc.1 (req_name r) = true
      · simp only [_load_pass2_req]
        rw [if_pos hhas]
        exact h1
      · simp only [_load_pass2_req]
        rw [if_neg hhas]
        exact h1
    have hstep2 : EdgeInvP (_load_pass2_req pname acc r).1 := by
      by_cases hhas : has_package acc.1 (req_name r) = true
      · simp only [_load_pass2_req]
        rw [if_pos hhas]
        intro pr hpr
        rcases edge_pairs_edgesAppend acc.1.edges (req_name r) (Option.some pname) r pr hpr
          with h' | h'
        · exact h2 pr h'
        · subst h'
          refine ⟨hhas, ?_⟩
          intro b hb
          cases hb
          show (nodesGet acc.1.nodes pname).isSome = true
          rw [h1]
          exact hk
      · simp only [_load_pass2_req]
        rw [if_neg hhas]
        exact h2
    have hstep3 : (_load_pass2_req pname acc r).2 = [] := by
      by_cases hhas : has_package acc.1 (req_name r) = true
      · simp only [_load_pass2_req]
        rw [if_pos hhas]
        have hre : r.extras = [] := hx r (List.mem_cons_self _ _)
        simp [hre, h3]
      · simp only [_load_pass2_req]
        rw [if_neg hhas]
        exact h3
    exact ih (fun r' hr' => hx r' (List.mem_cons_of_mem _ hr')) _ hstep1 hstep2 hstep3

theorem load_pass2_fold_inv (NS : Nodes) :
    ∀ (kvs : List (String × Node)),
      (∀ kv ∈ kvs, (nodesGet NS (kv : String × Node).1).isSome = true
        ∧ ∀ ipkg, kv.2.pkg = Option.some ipkg → ∀ r ∈ ipkg.get_requirements [] false, r.extras = []) →
    ∀ (acc : St × List (String × String × String)),
      acc.1.nodes = NS → EdgeInvP acc.1 → acc.2 = [] →
      (kvs.foldl _load_pass2_node acc).1.nodes = NS
      ∧ EdgeInvP (kvs.foldl _load_pass2_node acc).1
      ∧ (kvs.foldl _load_pass2_node acc).2 = [] := by
  intro kvs
  induction kvs with
  | nil => intro hkvs acc h1 h2 h3; exact ⟨h1, h2, h3⟩
  | cons kv rest ih =>
    intro hkvs acc h1 h2 h3
    rw [List.foldl_cons]
    obtain ⟨hk, hx⟩ := hkvs kv (List.mem_cons_self _ _)
    have hstep : (_load_pass2_node acc kv).1.nodes = NS
        ∧ EdgeInvP (_load_pass2_node acc kv).1
        ∧ (_load_pass2_node acc kv).2 = [] := by
      unfold _load_pass2_node
      cases hpk : kv.2.pkg with
      | none => exact ⟨h1, h2, h3⟩
      | some ipkg =>
        exact load_pass2_req_inv NS kv.1 hk _ (hx ipkg hpk) acc h1 h2 h3
    exact ih (fun kv' hkv' => hkvs kv' (List.mem_cons_of_mem _ hkv')) _
      hstep.1 hstep.2.1 hstep.2.2

/-- Loading an installed database whose requirements carry no extras yields
a state satisfying the edge invariant and name coherence: pass 2 guards
every edge with has_package and pass 3 is vacuous. -/
theorem load_install_db_inv (cat : Catalog) (hnx : installedReqsNoExtras cat = true) :
    Inv (_load_install_db cat) := by
  have hmem : ∀ kv ∈ _load_pass1 cat,
      (kv : String × Node).2.name = kv.1 ∧ ∃ d ∈ cat.installed, kv.2.pkg = Option.some d :=
    load_pass1_mem_aux cat cat.installed (fun d hd => hd) [] (fun kv hkv => by cases hkv)
  have hpass2 : (_load_pass2 ⟨_load_pass1 cat, [], ⟨[], []⟩, ⟨[], []⟩, ⟨[], []⟩⟩).1.nodes
        = _load_pass1 cat
      ∧ EdgeInvP (_load_pass2 ⟨_load_pass1 cat, [], ⟨[], []⟩, ⟨[], []⟩, ⟨[], []⟩⟩).1
      ∧ (_load_pass2 ⟨_load_pass1 cat, [], ⟨[], []⟩, ⟨[], []⟩, ⟨[], []⟩⟩).2 = [] :=
    load_pass2_fold_inv (_load_pass1 cat) (_load_pass1 cat)
      (by
        intro kv hkv
        refine ⟨nodesGet_isSome_of_mem _ kv.1 kv.2 (by simpa using hkv), ?_⟩
        intro ipkg hpk r hr
        obtain ⟨hname, d, hd, hpkg⟩ := hmem kv hkv
        rw [hpk] at hpkg
        cases hpkg
        exact installed_no_extras_spec hnx _ hd r hr)
      (⟨_load_pass1 cat, [], ⟨[], []⟩, ⟨[], []⟩, ⟨[], []⟩⟩, [])
      rfl
      (by intro pr hpr; simp [edge_pairs] at hpr)
      rfl
  show Inv ((_load_pass2 ⟨_load_pass1 cat, [], ⟨[], []⟩, ⟨[], []⟩, ⟨[], []⟩⟩).2.foldl
    _load_pass3_triple (_load_pass2 ⟨_load_pass1 cat, [], ⟨[], []⟩, ⟨[], []⟩, ⟨[], []⟩⟩).1)
  rw [hpass2.2.2, List.foldl_nil]
  constructor
  · exact hpass2.2.1
  · intro n node hget
    rw [hpass2.1] at hget
    exact (hmem (n, node) (nodesGet_mem _ n node hget)).1

end Depgraph

namespace Depgraph

/-- C4 amended: in every graph state reachable from loading an installed
database whose requirements carry no extras and then applying any sequence
of public add_requirement / remove_package calls, every recorded edge
edges[a][b] has its dependency name a a key of the node map, and its
dependent key b either a node key or the None marker of a top-level
requirement. -/
theorem reachable_edge_inv_amended (cat : Catalog) (st : St)
    (hre : Reachable cat st) (hnx : installedReqsNoExtras cat = true) :
    edge_inv_amended st = true := by
  have hinv : Inv st := by
    induction hre with
    | load => exact load_install_db_inv cat hnx
    | add fuel st0 r nodeps hre0 ih =>
      exact add_requirement_inv cat fuel st0 r nodeps Option.none ih (by intro b hb; cases hb)
    | remove fuel st0 name nodeps hre0 ih =>
      exact remove_package_inv fuel st0 name nodeps ih
  exact edge_inv_amended_of hinv.1

/-- C4 amended witness: the theorem applied at the concrete reachable state
of the counterexample - the loaded example state after
add_requirement("pycrypto==2.1") - where the amended invariant evaluates to
true even though the claimed one is false. -/
theorem reachable_edge_inv_amended_witness :
    edge_inv_amended eq21Run.1 = true := by
  exact reachable_edge_inv_amended exampleCatalog eq21Run.1
    (Reachable.add 10 st0 pycrypto_eq21 false Reachable.load) (by decide)

end Depgraph
